import Mathlib

/-!
Verification of the filtopt repository: a shallow embedding in Lean 4 of its
simulated-annealing filter optimizer (src/optimize.js), discrete component-value
model (src/component.js), two-port network algebra (src/unnamed/part_001,
twoPortNetwork.js) and load model (src/load.js), together with theorems about
the specification claims.

JavaScript numbers are modelled by real numbers extended with the three IEEE
special values that matter to this code (+Infinity, -Infinity, NaN); ordinary
finite double arithmetic is idealised as exact real arithmetic.  JavaScript
`assert` failures (node strict assert throws) are modelled by `Option`-returning
functions where a claim depends on them.  `Math.random()` draws are modelled as
explicit parameters or streams.
-/

/-- A JavaScript number as used for objective costs and dB computations:
either NaN, -Infinity, a finite real, or +Infinity. -/
inductive JSNum where
  | nan : JSNum
  | ninf : JSNum
  | fin : ℝ → JSNum
  | inf : JSNum

/-- JS subtraction `a - b` on extended numbers: `Infinity - Infinity` and
`(-Infinity) - (-Infinity)` are NaN, NaN propagates. -/
def jsSub : JSNum → JSNum → JSNum
  | .nan, _ => .nan
  | _, .nan => .nan
  | .fin a, .fin b => .fin (a - b)
  | .fin _, .inf => .ninf
  | .fin _, .ninf => .inf
  | .inf, .fin _ => .inf
  | .inf, .inf => .nan
  | .inf, .ninf => .inf
  | .ninf, .fin _ => .ninf
  | .ninf, .inf => .ninf
  | .ninf, .ninf => .nan

/-- JS unary minus on extended numbers. -/
def jsNeg : JSNum → JSNum
  | .nan => .nan
  | .fin a => .fin (-a)
  | .inf => .ninf
  | .ninf => .inf

open Classical in
/-- JS division of an extended number by a finite real (the annealing
temperature).  Signed zero is not modelled: division by `0` uses the `+0`
behaviour (`x / 0 = Infinity` for `x > 0`, `0 / 0 = NaN`). -/
noncomputable def jsDiv : JSNum → ℝ → JSNum
  | .nan, _ => .nan
  | .fin a, t =>
    if t = 0 then (if a = 0 then .nan else if 0 < a then .inf else .ninf)
    else .fin (a / t)
  | .inf, t => if t < 0 then .ninf else .inf
  | .ninf, t => if t < 0 then .inf else .ninf

/-- JS `Math.pow(2, x)` on extended exponents: `2^NaN = NaN`,
`2^Infinity = Infinity`, `2^(-Infinity) = 0`, and real exponentiation on finite
arguments. -/
noncomputable def jsPow2 : JSNum → JSNum
  | .nan => .nan
  | .inf => .inf
  | .ninf => .fin 0
  | .fin x => .fin ((2 : ℝ) ^ x)

/-- JS `<=` on extended numbers: any comparison with NaN is false. -/
def jsLe : JSNum → JSNum → Prop
  | .nan, _ => False
  | _, .nan => False
  | .fin a, .fin b => a ≤ b
  | .fin _, .inf => True
  | .fin _, .ninf => False
  | .inf, .fin _ => False
  | .inf, .inf => True
  | .inf, .ninf => False
  | .ninf, _ => True

/-- JS `<` on extended numbers: any comparison with NaN is false. -/
def jsLt : JSNum → JSNum → Prop
  | .nan, _ => False
  | _, .nan => False
  | .fin a, .fin b => a < b
  | .fin _, .inf => True
  | .fin _, .ninf => False
  | .inf, _ => False
  | .ninf, .ninf => False
  | .ninf, _ => True

/-- The acceptance test of `optimizeFilter` (src/optimize.js line 266):
`Math.random() <= Math.pow(2, - (candidateObjectiveValue - objectiveValue) / temperature)`,
with the uniform draw `draw` standing for `Math.random()`. -/
def accepted (draw : ℝ) (candidateObjectiveValue objectiveValue : JSNum)
    (temperature : ℝ) : Prop :=
  jsLe (.fin draw)
    (jsPow2 (jsDiv (jsNeg (jsSub candidateObjectiveValue objectiveValue)) temperature))

/-- State threaded through the annealing loop of `optimizeFilter`:
the current filter, its objective value, and the temperature. -/
structure AnnealState (α : Type _) where
  filter : α
  objectiveValue : JSNum
  temperature : ℝ

open Classical in
/-- One iteration of the `optimizeFilter` loop body (src/optimize.js lines
263-271): perturb, evaluate, accept or reject by the acceptance test, then cool
the temperature geometrically.  `update` is the stochastic `filter.update()`
for this iteration and `draw` the `Math.random()` acceptance draw. -/
noncomputable def annealStep {α : Type _} (objectiveFunction : α → JSNum)
    (update : α → α) (draw coolingRate : ℝ) (st : AnnealState α) : AnnealState α :=
  let candidateFilter := update st.filter
  let candidateObjectiveValue := objectiveFunction candidateFilter
  let accepted' :=
    if accepted draw candidateObjectiveValue st.objectiveValue st.temperature then
      { st with filter := candidateFilter, objectiveValue := candidateObjectiveValue }
    else st
  { accepted' with
    temperature := accepted'.temperature - accepted'.temperature * coolingRate }

/-- The `for` loop of `optimizeFilter`, iterated `k` more times starting at
iteration index `i`; `updates` and `draws` are the streams of stochastic
perturbations and acceptance draws. -/
noncomputable def annealLoop {α : Type _} (objectiveFunction : α → JSNum)
    (updates : ℕ → α → α) (draws : ℕ → ℝ) (coolingRate : ℝ) :
    ℕ → ℕ → AnnealState α → AnnealState α
  | _, 0, st => st
  | i, k + 1, st =>
    annealLoop objectiveFunction updates draws coolingRate (i + 1) k
      (annealStep objectiveFunction (updates i) (draws i) coolingRate st)

/-- The `optimizeFilter` entry point (src/optimize.js lines 253-273).  Its
`assert(initialTemperature)`, `assert(coolingRate)` and `assert(iterations)`
truthiness checks are modelled by returning `none` when the argument is zero
(node strict `assert` throws on falsy arguments; the always-truthy object
asserts on `initialFilter` and `objectiveFunction` are omitted). -/
noncomputable def optimizeFilter {α : Type _} (initialFilter : α)
    (objectiveFunction : α → JSNum) (initialTemperature coolingRate : ℝ)
    (iterations : ℕ) (updates : ℕ → α → α) (draws : ℕ → ℝ) : Option α :=
  if initialTemperature = 0 then none
  else if coolingRate = 0 then none
  else if iterations = 0 then none
  else
    some (annealLoop objectiveFunction updates draws coolingRate 0 iterations
      ⟨initialFilter, objectiveFunction initialFilter, initialTemperature⟩).filter

/-!  Two-port network algebra (src/unnamed/part_001, twoPortNetwork.js). -/

/-- The 2x2 complex matrix product of `TwoPortMatrix.matrixMuliply`
(src/unnamed/part_001 lines 35-49; the source spells it `matrixMuliply`):
starting from a zero matrix, the triple loop adds
`this.get(i, k) * multiplier.get(k, j)` for `k = 0, 1` into entry `(i, j)`. -/
def matrixMuliply (m1 m2 : Matrix (Fin 2) (Fin 2) ℂ) : Matrix (Fin 2) (Fin 2) ℂ :=
  Matrix.of fun i j => 0 + m1 i 0 * m2 0 j + m1 i 1 * m2 1 j

/-- A `TwoPortNetwork` is its ABCD-matrix function of angular frequency. -/
def TwoPortNetwork : Type := ℝ → Matrix (Fin 2) (Fin 2) ℂ

namespace TwoPortNetwork

/-- The voltage gain `1 / A(omega)` where `A` is the matrix entry `(0, 0)`
(src/unnamed/part_001 lines 76-80).  The `assert(angularFrequency >= 0)` is a
precondition carried as a hypothesis by the theorems below. -/
noncomputable def voltageGain (network : TwoPortNetwork) (angularFrequency : ℝ) : ℂ :=
  1 / network angularFrequency 0 0

/-- The transformer two-port (src/unnamed/part_001 lines 151-156), ABCD matrix
`[[turnsRatio, 0], [0, 1 / turnsRatio]]`; its asserts require
`turnsRatio > 0`, satisfied at the only internal use `transformer(1)`. -/
noncomputable def transformer (turnsRatio : ℝ) : TwoPortNetwork :=
  fun _ => !![(turnsRatio : ℂ), 0; 0, ((1 / turnsRatio : ℝ) : ℂ)]

/-- The identity two-port network, `transformer(1)` (src/unnamed/part_001). -/
noncomputable def identity : TwoPortNetwork := transformer 1

/-- Cascade of two-port networks (src/unnamed/part_001 lines 171-186):
a left fold of the frequency-wise matrix product starting from `identity()`
(JS `reduce` with an initial value is a left fold). -/
noncomputable def cascade (stages : List TwoPortNetwork) : TwoPortNetwork :=
  stages.foldl
    (fun combinedStages nextStage angularFrequency =>
      matrixMuliply (combinedStages angularFrequency) (nextStage angularFrequency))
    identity

end TwoPortNetwork

/-!  Load model (src/load.js). -/

/-- A `Load` is its impedance function of angular frequency. -/
def Load : Type := ℝ → ℂ

namespace Load

/-- The impedance of a load (src/load.js lines 35-39); the
`assert(angularFrequency >= 0)` is a precondition carried as a hypothesis. -/
def impedance (load : Load) (angularFrequency : ℝ) : ℂ :=
  load angularFrequency

/-- The admittance of a load, the reciprocal of its impedance
(src/load.js lines 45-49). -/
noncomputable def admittance (load : Load) (angularFrequency : ℝ) : ℂ :=
  1 / load angularFrequency

/-- `Load.series(...loads)` (src/load.js lines 110-121): the impedance at each
frequency is accumulated by adding each load's impedance to `0`. -/
def series (loads : List Load) : Load :=
  fun angularFrequency =>
    loads.foldl (fun combinedImpedance load => combinedImpedance + impedance load angularFrequency) 0

/-- `Load.parallel(...loads)` (src/load.js lines 92-103): the admittances are
accumulated from `0` and the result is reciprocated. -/
noncomputable def parallel (loads : List Load) : Load :=
  fun angularFrequency =>
    1 / loads.foldl (fun evaluatedAdmittance load => evaluatedAdmittance + admittance load angularFrequency) 0

end Load

/-!  The matching-network objective (src/optimize.js lines 282-325). -/

/-- The magnitude of a network's voltage gain, `network.voltageGain(omega).abs()`,
sampled by the objective's frequency loop. -/
noncomputable def networkGainMagnitude (network : TwoPortNetwork) (angularFrequency : ℝ) : ℝ :=
  Complex.abs (TwoPortNetwork.voltageGain network angularFrequency)

open Classical in
/-- The objective's sampling loop (src/optimize.js lines 297-308):
`for (omega = minAngularFrequency; omega < maxAngularFrequency; omega += step)`
collecting the gain samples in order.  The JS loop has no iteration bound; the
`fuel` argument is an upper bound on the number of iterations modelled, and the
theorems below show the loop needs exactly `nTestSamples` iterations, so any
`fuel ≥ nTestSamples` yields the loop's limit behaviour. -/
noncomputable def sweep (gain : ℝ → ℝ) (maxAngularFrequency step : ℝ) :
    ℝ → ℕ → List ℝ
  | _, 0 => []
  | angularFrequency, fuel + 1 =>
    if angularFrequency < maxAngularFrequency then
      gain angularFrequency ::
        sweep gain maxAngularFrequency step (angularFrequency + step) fuel
    else []

open Classical in
/-- Accumulator for `currentMinGain`: JS
`if (currentMinGain === undefined || sample < currentMinGain) currentMinGain = sample`. -/
noncomputable def jsMinAcc (currentMinGain : Option ℝ) (sample : ℝ) : Option ℝ :=
  match currentMinGain with
  | none => some sample
  | some m => some (if sample < m then sample else m)

open Classical in
/-- Accumulator for `currentMaxGain`: JS
`if (currentMaxGain === undefined || sample > currentMaxGain) currentMaxGain = sample`. -/
noncomputable def jsMaxAcc (currentMaxGain : Option ℝ) (sample : ℝ) : Option ℝ :=
  match currentMaxGain with
  | none => some sample
  | some m => some (if m < sample then sample else m)

open Classical in
/-- JS `10 * Math.log10(x)` as an extended number: NaN on negative arguments,
`-Infinity` at `0` (so `10 * Math.log10(0) = -Infinity`), finite otherwise. -/
noncomputable def jsDb (x : ℝ) : JSNum :=
  if 0 < x then .fin (10 * Real.logb 10 x) else if x = 0 then .ninf else .nan

/-- `jsDb` applied to a possibly-undefined gain extreme:
`10 * Math.log10(undefined)` is NaN. -/
noncomputable def jsDbOpt : Option ℝ → JSNum
  | none => .nan
  | some x => jsDb x

open Classical in
/-- The closure returned by `makeMatchingNetworkObjective` (src/optimize.js
lines 291-324), with the angular frequency band bounds already computed: sample
the gain magnitude over the band, compute the running min, max and sum, and
produce the cost.  `gainDeviation` is
`10 * Math.log10(currentMaxGain) - 10 * Math.log10(currentMinGain)` and the
feasible cost is `-10 * Math.log10(meanGain)` (the source's `console.log` side
effect is ignored). -/
noncomputable def matchingObjectiveCore (minAngularFrequency maxAngularFrequency
    maxGainDeviation : ℝ) (nTestSamples fuel : ℕ) (network : TwoPortNetwork) : JSNum :=
  let angularFrequencyRange := maxAngularFrequency - minAngularFrequency
  let samples := sweep (networkGainMagnitude network) maxAngularFrequency
    (angularFrequencyRange / nTestSamples) minAngularFrequency fuel
  let currentMinGain := samples.foldl jsMinAcc none
  let currentMaxGain := samples.foldl jsMaxAcc none
  let gainSum := samples.foldl (· + ·) 0
  let meanGain := gainSum / (nTestSamples : ℝ)
  let gainDeviation := jsSub (jsDbOpt currentMaxGain) (jsDbOpt currentMinGain)
  if jsLt (.fin maxGainDeviation) gainDeviation then .inf
  else if meanGain = 0 then .inf
  else jsNeg (jsDb meanGain)

open Classical in
/-- `makeMatchingNetworkObjective(minFrequency, maxFrequency, maxGainDeviation,
nTestSamples)` (src/optimize.js lines 282-291): after truthiness asserts on the
three frequency/deviation arguments (modelled as `none` on zero), it computes
the angular band bounds `frequency * 2 * pi` and returns the sampling closure. -/
noncomputable def makeMatchingNetworkObjective (minFrequency maxFrequency
    maxGainDeviation : ℝ) (nTestSamples fuel : ℕ) :
    Option (TwoPortNetwork → JSNum) :=
  if minFrequency = 0 then none
  else if maxFrequency = 0 then none
  else if maxGainDeviation = 0 then none
  else
    some (matchingObjectiveCore (minFrequency * 2 * Real.pi)
      (maxFrequency * 2 * Real.pi) maxGainDeviation nTestSamples fuel)

/-!  Discrete component-value model (src/component.js).  Component values are
modelled over the rationals: the E24 literals and all values derived from them
are exact decimals, and `Infinity` table entries are modelled by `⊤` in
`WithTop ℚ`. -/

/-- The E24 preferred-value table (src/component.js line 8). -/
def E24_VALUES : List ℚ :=
  [1.0, 1.1, 1.2, 1.3, 1.5, 1.6, 1.8, 2.0, 2.2, 2.4, 2.7, 3.0, 3.3, 3.6, 3.9,
   4.3, 4.7, 5.1, 5.6, 6.2, 6.8, 7.5, 8.2, 9.1]

/-- JS `Array.prototype.findIndex`: the first index whose element satisfies the
predicate, or `-1` when none does. -/
def findIndexJS {α : Type _} (p : α → Bool) : List α → ℤ
  | [] => -1
  | a :: as =>
    if p a then 0
    else
      let r := findIndexJS p as
      if r = -1 then -1 else r + 1

/-- JS array indexing `array[i]`: `undefined` (modelled `none`) for negative or
out-of-range indices. -/
def getJS {α : Type _} (l : List α) (i : ℤ) : Option α :=
  if 0 ≤ i then l[i.toNat]? else none

/-- JS `Math.abs(value - x)` against a possibly infinite table entry:
`Math.abs(v - Infinity) = Infinity`, finite difference otherwise. -/
def jsAbsDiff (value : ℚ) (x : WithTop ℚ) : WithTop ℚ :=
  WithTop.map (fun q => |value - q|) x

/-- `VariableComponentValue.nearestNeighborIndex(value, neighbors)`
(src/component.js lines 77-91): find the first index whose entry is `≥ value`;
return it if it is `0`; otherwise compare the upper entry and its predecessor by
absolute distance, ties to the upper.  When `findIndex` misses (value above the
whole table) both array reads at `upperValueIndex = -1` and
`lowerValueIndex = -2` give `undefined`, the NaN distance comparison is false,
and `-2` is returned; the `none` match arm models that path.  This is the
computation after the function's leading `assert(value)` truthiness check,
which is modelled by `nearestNeighborIndexChecked` below (and re-checked by
`initComponent` before its call). -/
def nearestNeighborIndex (value : ℚ) (neighbors : List (WithTop ℚ)) : ℤ :=
  let upperValueIndex := findIndexJS (fun feasibleValue => decide ((value : WithTop ℚ) ≤ feasibleValue)) neighbors
  if upperValueIndex = 0 then upperValueIndex
  else
    let lowerValueIndex := upperValueIndex - 1
    match getJS neighbors lowerValueIndex, getJS neighbors upperValueIndex with
    | some lowerValue, some upperValue =>
      if jsAbsDiff value upperValue ≤ jsAbsDiff value lowerValue then upperValueIndex
      else lowerValueIndex
    | _, _ => lowerValueIndex

/-- The full `nearestNeighborIndex` entry point including its leading
`assert(value)` truthiness check (src/component.js line 78): node strict
`assert` throws on the falsy number `0` (modelled `none`) before any array
access; on a nonzero value the computation above runs and its result is
returned. -/
def nearestNeighborIndexChecked (value : ℚ) (neighbors : List (WithTop ℚ)) :
    Option ℤ :=
  if value = 0 then none else some (nearestNeighborIndex value neighbors)

/-- `VariableComponentValue.feasiblePreferredValues(minValue, maxValue)`
(src/component.js lines 99-114): every `eValue * 10^orderOfMagnitude` for
`orderOfMagnitude` from `floor(log10(minValue))` to `ceil(log10(maxValue))`
inclusive and `eValue` in the E24 table, kept when inside `[minValue, maxValue]`,
then sorted ascending (the JS numeric comparator sort).  `Math.floor(Math.log10 x)`
and `Math.ceil(Math.log10 x)` are `Int.log 10` and `Int.clog 10` on positive
rationals.  Its asserts require `0 < minValue ≤ maxValue`.  The inner loop body
(one decade's in-range candidates) comes first: -/
def decadeCandidates (minValue maxValue : ℚ) (orderOfMagnitude : ℤ) : List ℚ :=
  (E24_VALUES.map (fun eValue => eValue * (10 : ℚ) ^ orderOfMagnitude)).filter
    (fun candidateValue => decide (minValue ≤ candidateValue ∧ candidateValue ≤ maxValue))

/-- The decades scanned by the `feasiblePreferredValues` outer loop:
`floor(log10(minValue))` to `ceil(log10(maxValue))` inclusive. -/
def decadeRange (minValue maxValue : ℚ) : List ℤ :=
  (List.range ((Int.clog 10 maxValue) + 1 - (Int.log 10 minValue)).toNat).map
    (fun d : ℕ => Int.log 10 minValue + (d : ℤ))

def feasiblePreferredValues (minValue maxValue : ℚ) : List ℚ :=
  ((decadeRange minValue maxValue).flatMap (decadeCandidates minValue maxValue)).mergeSort
    (fun a b => decide (a ≤ b))

/-- The feasible-value table built by `initializeComponent` from
`feasiblePreferredValues`, with `0` prepended by `unshift` when `allowZero` and
`Infinity` appended by `push` when `allowInfinite` (src/component.js
lines 130-134). -/
def componentTable (minValue maxValue : ℚ) (allowZero allowInfinite : Bool) :
    List (WithTop ℚ) :=
  let feasibleValues := (feasiblePreferredValues minValue maxValue).map
    (fun q : ℚ => ((q : ℚ) : WithTop ℚ))
  let withZero := if allowZero then (0 : WithTop ℚ) :: feasibleValues else feasibleValues
  if allowInfinite then withZero ++ [(⊤ : WithTop ℚ)] else withZero

/-- A `VariableComponentValue` (src/component.js lines 27-69): a feasible-value
table plus the current index into it.  The constructor's `assert(valueIndex >= 0)`
is enforced where components are built. -/
structure VariableComponentValue where
  feasibleValues : List (WithTop ℚ)
  valueIndex : ℕ

namespace VariableComponentValue

/-- The `value` getter, `this.feasibleValues[this.valueIndex]`; JS yields
`undefined` (here `none`) when the index is out of range. -/
def value (c : VariableComponentValue) : Option (WithTop ℚ) :=
  c.feasibleValues[c.valueIndex]?

/-- The `_nextIndex` step (src/component.js lines 63-69): index `0` goes to `1`,
the last index goes to `length - 2`, and an interior index moves by one in the
direction of the `Math.random() > 0.5` coin. -/
def nextIndex (c : VariableComponentValue) (coin : Bool) : ℕ :=
  if c.valueIndex = 0 then 1
  else if c.valueIndex = c.feasibleValues.length - 1 then c.feasibleValues.length - 2
  else if coin then c.valueIndex + 1 else c.valueIndex - 1

/-- `update()` (src/component.js lines 55-57): a new component value over the
same table at `_nextIndex`. -/
def update (c : VariableComponentValue) (coin : Bool) : VariableComponentValue :=
  ⟨c.feasibleValues, nextIndex c coin⟩

/-- `VariableComponentValue.initializeComponent(initialValue, maxValue,
minValue, allowZero, allowInfinite)` (src/component.js lines 125-139), named
`initComponent` here.  `none` models an assertion failure: its own asserts
`initialValue >= 0`, `minValue > 0`, `maxValue >= minValue`; the
`assert(value)` truthiness check inside `nearestNeighborIndex`, which throws
on `initialValue = 0`; and the constructor's `assert(valueIndex >= 0)`, which
throws when `nearestNeighborIndex` returns a negative index. -/
def initComponent (initialValue maxValue minValue : ℚ)
    (allowZero allowInfinite : Bool) : Option VariableComponentValue :=
  if ¬ 0 ≤ initialValue then none
  else if ¬ 0 < minValue then none
  else if ¬ minValue ≤ maxValue then none
  else
    let feasibleValues := componentTable minValue maxValue allowZero allowInfinite
    if initialValue = 0 then none
    else
      let valueIndex := nearestNeighborIndex initialValue feasibleValues
      if 0 ≤ valueIndex then some ⟨feasibleValues, valueIndex.toNat⟩ else none

end VariableComponentValue

/-- The value `w` is a member of the table nearest to `v`, ties resolved to the
upper neighbour: every table entry is either strictly farther from `v` than `w`,
or equally far and no larger than `w`. -/
def isNearest (v : ℚ) (l : List (WithTop ℚ)) (w : WithTop ℚ) : Prop :=
  w ∈ l ∧ ∀ u ∈ l,
    jsAbsDiff v w < jsAbsDiff v u ∨ (jsAbsDiff v w = jsAbsDiff v u ∧ u ≤ w)

/-!  Theorems. -/

/-- C1 counterexample: when both the candidate cost and the current cost are
the `+Infinity` infeasibility sentinel, JS has `Infinity <= Infinity` true, yet
the candidate is rejected for every draw (here `0`, which lies in `[0, 1)`):
`Infinity - Infinity` is NaN, `Math.pow(2, NaN)` is NaN, and
`Math.random() <= NaN` is false. -/
theorem accepted_infinite_counterexample :
    jsLe JSNum.inf JSNum.inf ∧ (0 : ℝ) ≤ 0 ∧ (0 : ℝ) < 1 ∧
    ¬ accepted 0 JSNum.inf JSNum.inf 1 := by
  refine ⟨trivial, le_refl 0, one_pos, ?_⟩
  simp [accepted, jsSub, jsNeg, jsDiv, jsPow2, jsLe]

/-- C1 (amended): in every iteration of `optimizeFilter`, whenever
`candidateCost ≤ currentCost` holds under the JS comparison AND the difference
`candidateCost - currentCost` is not NaN (it is NaN exactly when both costs are
the same infinity), the candidate is accepted regardless of the uniform draw in
`[0, 1)`; when both costs are the `+Infinity` sentinel the candidate is always
rejected; and otherwise, on finite costs, the candidate is accepted exactly when
the draw is at most `2 ^ (-(candidateCost - currentCost) / temperature)`. -/
theorem accepted_spec :
    (∀ (draw : ℝ) (candidateCost currentCost : JSNum) (temperature : ℝ),
      0 < temperature → 0 ≤ draw → draw < 1 →
      jsLe candidateCost currentCost → jsSub candidateCost currentCost ≠ JSNum.nan →
      accepted draw candidateCost currentCost temperature) ∧
    (∀ (draw temperature a b : ℝ), 0 < temperature →
      (accepted draw (.fin a) (.fin b) temperature ↔
        draw ≤ (2 : ℝ) ^ (-(a - b) / temperature))) ∧
    (∀ (draw temperature : ℝ), ¬ accepted draw JSNum.inf JSNum.inf temperature) := by
  have hfin : ∀ (draw temperature a b : ℝ), 0 < temperature →
      (accepted draw (.fin a) (.fin b) temperature ↔
        draw ≤ (2 : ℝ) ^ (-(a - b) / temperature)) := by
    intro draw temperature a b ht
    simp [accepted, jsSub, jsNeg, jsDiv, jsPow2, jsLe, ht.ne']
  refine ⟨?_, hfin, ?_⟩
  · intro draw cand cur temperature ht hd0 hd1 hle hsub
    have htlt : ¬ temperature < 0 := not_lt.mpr ht.le
    rcases cand with _ | _ | a | _ <;> rcases cur with _ | _ | b | _ <;>
      simp [jsLe] at hle <;>
      simp [accepted, jsSub, jsNeg, jsDiv, jsPow2, jsLe, htlt, ht.ne'] at hsub ⊢
    · -- finite candidate, finite current, a ≤ b
      have hexp : (0 : ℝ) ≤ (b - a) / temperature :=
        div_nonneg (by linarith) ht.le
      calc draw ≤ 1 := hd1.le
        _ = (2 : ℝ) ^ (0 : ℝ) := (Real.rpow_zero 2).symm
        _ ≤ (2 : ℝ) ^ ((b - a) / temperature) :=
          Real.rpow_le_rpow_of_exponent_le one_le_two hexp
  · intro draw temperature
    simp [accepted, jsSub, jsNeg, jsDiv, jsPow2, jsLe]

/-- Witness for `accepted_spec`: with equal finite costs `0` and temperature
`1`, the draw `1/2` is accepted. -/
theorem accepted_spec_witness :
    accepted (1 / 2) (JSNum.fin 0) (JSNum.fin 0) 1 :=
  accepted_spec.1 (1 / 2) (.fin 0) (.fin 0) 1 one_pos (by norm_num) (by norm_num)
    (by simp [jsLe]) (by simp [jsSub])

/-- C3 counterexample: `optimizeFilter` called with `iterations = 0` and
otherwise valid arguments (temperature `1`, cooling rate `1/2`) does not return
the initial filter: its `assert(iterations)` truthiness check throws
(modelled `none`). -/
theorem optimizeFilter_zero_counterexample :
    optimizeFilter (0 : ℚ) (fun _ => JSNum.fin 0) 1 (1 / 2) 0
      (fun _ x => x) (fun _ => 0) = none := by
  norm_num [optimizeFilter]

/-- C3 (amended): `optimizeFilter` called with `iterations = 0` always fails its
`assert(iterations)` truthiness check (node assert throws on `0`), returning no
filter; the annealing loop itself, run for zero iterations, leaves the state --
in particular the initial filter -- unchanged. -/
theorem optimizeFilter_zero_iterations :
    (∀ (α : Type) (initialFilter : α) (objectiveFunction : α → JSNum)
      (initialTemperature coolingRate : ℝ) (updates : ℕ → α → α) (draws : ℕ → ℝ),
      optimizeFilter initialFilter objectiveFunction initialTemperature
        coolingRate 0 updates draws = none) ∧
    (∀ (α : Type) (objectiveFunction : α → JSNum) (updates : ℕ → α → α)
      (draws : ℕ → ℝ) (coolingRate : ℝ) (i : ℕ) (st : AnnealState α),
      annealLoop objectiveFunction updates draws coolingRate i 0 st = st) := by
  constructor
  · intro α f obj T r upd drw
    by_cases hT : T = 0
    · simp [optimizeFilter, hT]
    · by_cases hr : r = 0 <;> simp [optimizeFilter, hT, hr]
  · intro α obj upd drw r i st
    rfl

/-- The identity network's ABCD matrix is the identity matrix at every
frequency (`transformer(1)` has entries `[[1, 0], [0, 1/1]]`). -/
theorem identity_matrix_eq_one (angularFrequency : ℝ) :
    TwoPortNetwork.identity angularFrequency = (1 : Matrix (Fin 2) (Fin 2) ℂ) := by
  ext i j
  fin_cases i <;> fin_cases j <;>
    simp [TwoPortNetwork.identity, TwoPortNetwork.transformer, Matrix.one_apply]

/-- The source's 2x2 matrix product is left-unital. -/
theorem matrixMuliply_one_left (A : Matrix (Fin 2) (Fin 2) ℂ) :
    matrixMuliply (1 : Matrix (Fin 2) (Fin 2) ℂ) A = A := by
  ext i j
  fin_cases i <;> fin_cases j <;> simp [matrixMuliply, Matrix.one_apply]

/-- The source's 2x2 matrix product is associative. -/
theorem matrixMuliply_assoc (A B C : Matrix (Fin 2) (Fin 2) ℂ) :
    matrixMuliply (matrixMuliply A B) C = matrixMuliply A (matrixMuliply B C) := by
  ext i j
  fin_cases i <;> fin_cases j <;> simp [matrixMuliply] <;> ring

/-- C6: `cascade()` applied to an empty list of networks equals `identity()`;
for every angular frequency `ω ≥ 0` its ABCD matrix is the 2x2 identity matrix
and its `voltageGain(ω)` is the complex value `1` (that is, `(1, 0)`). -/
theorem cascade_nil_identity :
    TwoPortNetwork.cascade [] = TwoPortNetwork.identity ∧
    ∀ angularFrequency : ℝ, 0 ≤ angularFrequency →
      TwoPortNetwork.cascade [] angularFrequency = (1 : Matrix (Fin 2) (Fin 2) ℂ) ∧
      TwoPortNetwork.voltageGain (TwoPortNetwork.cascade []) angularFrequency = 1 := by
  refine ⟨rfl, fun ω _ => ⟨identity_matrix_eq_one ω, ?_⟩⟩
  show (1 : ℂ) / TwoPortNetwork.cascade [] ω 0 0 = 1
  rw [show TwoPortNetwork.cascade [] ω = (1 : Matrix (Fin 2) (Fin 2) ℂ) from
    identity_matrix_eq_one ω]
  simp [Matrix.one_apply]

/-- Witness for `cascade_nil_identity` at `ω = 0`. -/
theorem cascade_nil_identity_witness :
    TwoPortNetwork.cascade [] 0 = (1 : Matrix (Fin 2) (Fin 2) ℂ) ∧
    TwoPortNetwork.voltageGain (TwoPortNetwork.cascade []) 0 = 1 :=
  cascade_nil_identity.2 0 le_rfl

/-- C7: cascade is associative: for all two-port networks `a`, `b`, `c` and
every `ω ≥ 0`, the ABCD matrices of `cascade(a, b, c)`,
`cascade(cascade(a, b), c)` and `cascade(a, cascade(b, c))` at `ω` agree. -/
theorem cascade_assoc (a b c : TwoPortNetwork) (angularFrequency : ℝ)
    (h : 0 ≤ angularFrequency) :
    TwoPortNetwork.cascade [a, b, c] angularFrequency =
      TwoPortNetwork.cascade [TwoPortNetwork.cascade [a, b], c] angularFrequency ∧
    TwoPortNetwork.cascade [a, b, c] angularFrequency =
      TwoPortNetwork.cascade [a, TwoPortNetwork.cascade [b, c]] angularFrequency := by
  have hone : ∀ (ω : ℝ) (M : Matrix (Fin 2) (Fin 2) ℂ),
      matrixMuliply (TwoPortNetwork.identity ω) M = M := by
    intro ω M
    rw [identity_matrix_eq_one, matrixMuliply_one_left]
  refine ⟨?_, ?_⟩ <;> simp only [TwoPortNetwork.cascade, List.foldl, hone]
  rw [matrixMuliply_assoc]

/-- Witness for `cascade_assoc` with three identity networks at `ω = 0`. -/
theorem cascade_assoc_witness :
    TwoPortNetwork.cascade [TwoPortNetwork.identity, TwoPortNetwork.identity,
      TwoPortNetwork.identity] 0 =
      TwoPortNetwork.cascade [TwoPortNetwork.cascade [TwoPortNetwork.identity,
        TwoPortNetwork.identity], TwoPortNetwork.identity] 0 :=
  (cascade_assoc TwoPortNetwork.identity TwoPortNetwork.identity
    TwoPortNetwork.identity 0 le_rfl).1

/-- Left folds of pointwise addition compute list sums. -/
theorem foldl_add_eq_sum {α : Type _} (f : α → ℂ) (l : List α) (a : ℂ) :
    l.foldl (fun acc x => acc + f x) a = a + (l.map f).sum := by
  induction l generalizing a with
  | nil => simp
  | cons hd tl ih => simp [ih, add_assoc]

/-- C8: for every list of loads and `ω ≥ 0`, the impedance of
`Load.series(loads...)` is the sum of the loads' impedances and the impedance of
`Load.parallel(loads...)` is the reciprocal of the sum of the loads'
admittances; with zero arguments, `series` has zero impedance and `parallel`
has zero admittance, the identity elements of their compositions. -/
theorem load_series_parallel_spec (loads : List Load) (angularFrequency : ℝ)
    (h : 0 ≤ angularFrequency) :
    Load.impedance (Load.series loads) angularFrequency =
      (loads.map (fun load => Load.impedance load angularFrequency)).sum ∧
    Load.impedance (Load.parallel loads) angularFrequency =
      1 / (loads.map (fun load => Load.admittance load angularFrequency)).sum ∧
    Load.impedance (Load.series []) angularFrequency = 0 ∧
    Load.admittance (Load.parallel []) angularFrequency = 0 := by
  refine ⟨?_, ?_, ?_, ?_⟩
  · show loads.foldl _ 0 = _
    rw [foldl_add_eq_sum (fun load => Load.impedance load angularFrequency) loads 0,
      zero_add]
  · show 1 / loads.foldl _ 0 = _
    rw [foldl_add_eq_sum (fun load => Load.admittance load angularFrequency) loads 0,
      zero_add]
  · simp [Load.impedance, Load.series]
  · simp [Load.admittance, Load.parallel]

/-- Witness for `load_series_parallel_spec` with no loads at `ω = 0`. -/
theorem load_series_parallel_spec_witness :
    Load.impedance (Load.series []) 0 = 0 ∧ Load.admittance (Load.parallel []) 0 = 0 :=
  ⟨(load_series_parallel_spec [] 0 le_rfl).2.2.1,
   (load_series_parallel_spec [] 0 le_rfl).2.2.2⟩

/-- The sampling loop performs no iterations once the frequency reaches the
band's upper end. -/
theorem sweep_of_not_lt (gain : ℝ → ℝ) (maxAngularFrequency step start : ℝ)
    (fuel : ℕ) (h : ¬ start < maxAngularFrequency) :
    sweep gain maxAngularFrequency step start fuel = [] := by
  cases fuel <;> simp [sweep, h]

/-- The sampling loop visits exactly the `n` points `start + k * step`,
`k = 0, ..., n - 1`, whenever those points lie below the band's upper end and
the `n`-th point does not. -/
theorem sweep_eq_map_range (gain : ℝ → ℝ) (maxAngularFrequency step : ℝ) :
    ∀ (n : ℕ) (start : ℝ) (fuel : ℕ), n ≤ fuel →
      (∀ k : ℕ, k < n → start + k * step < maxAngularFrequency) →
      maxAngularFrequency ≤ start + n * step →
      sweep gain maxAngularFrequency step start fuel =
        (List.range n).map (fun k : ℕ => gain (start + (k : ℝ) * step)) := by
  intro n
  induction n with
  | zero =>
    intro start fuel _ _ hge
    have hnot : ¬ start < maxAngularFrequency := by
      push_neg
      simpa using hge
    simp [sweep_of_not_lt gain maxAngularFrequency step start fuel hnot]
  | succ m ih =>
    intro start fuel hfuel hlt hge
    obtain ⟨f, rfl⟩ : ∃ f, fuel = f + 1 := ⟨fuel - 1, by omega⟩
    have h0 : start < maxAngularFrequency := by simpa using hlt 0 (Nat.succ_pos m)
    have hlt' : ∀ k : ℕ, k < m → start + step + k * step < maxAngularFrequency := by
      intro k hk
      have hk1 := hlt (k + 1) (by omega)
      calc start + step + k * step = start + ((k : ℝ) + 1) * step := by ring
        _ < maxAngularFrequency := by push_cast at hk1; exact hk1
    have hge' : maxAngularFrequency ≤ start + step + m * step := by
      have := hge
      push_cast at this
      calc maxAngularFrequency ≤ start + ((m : ℝ) + 1) * step := this
        _ = start + step + m * step := by ring
    simp only [sweep, if_pos h0]
    rw [ih (start + step) f (by omega) hlt' hge', List.range_succ_eq_map,
      List.map_cons, List.map_map]
    congr 1
    · norm_num
    · refine List.map_congr_left ?_
      intro k _
      simp only [Function.comp]
      congr 1
      push_cast
      ring

/-- Left folds of addition over the reals compute list sums. -/
theorem foldl_add_real (l : List ℝ) (a : ℝ) : l.foldl (· + ·) a = a + l.sum := by
  induction l generalizing a with
  | nil => simp
  | cons hd tl ih => simp [ih, add_assoc]

/-- C9: for every network and valid band, the objective's sampling loop
evaluates the gain magnitude at exactly `nTestSamples` equally spaced angular
frequencies `minA + k * (maxA - minA) / nTestSamples`, `k = 0, ..., n - 1`,
where `minA = 2 pi minFrequency`, `maxA = 2 pi maxFrequency`, all strictly
below `maxA` (the point `maxA` itself is never evaluated), and the mean gain is
the sum of these samples divided by `nTestSamples`. -/
theorem objective_sampling_spec (minFrequency maxFrequency minA maxA step : ℝ)
    (nTestSamples fuel : ℕ) (network : TwoPortNetwork)
    (hminA : minA = minFrequency * 2 * Real.pi)
    (hmaxA : maxA = maxFrequency * 2 * Real.pi)
    (hstep : step = (maxA - minA) / nTestSamples)
    (hf : minFrequency < maxFrequency) (hn : 1 ≤ nTestSamples)
    (hfuel : nTestSamples ≤ fuel) :
    sweep (networkGainMagnitude network) maxA step minA fuel =
      (List.range nTestSamples).map
        (fun k : ℕ => networkGainMagnitude network (minA + (k : ℝ) * step)) ∧
    (∀ k : ℕ, k < nTestSamples → minA + k * step < maxA) ∧
    (sweep (networkGainMagnitude network) maxA step minA fuel).length = nTestSamples ∧
    (sweep (networkGainMagnitude network) maxA step minA fuel).foldl (· + ·) 0 /
        (nTestSamples : ℝ) =
      ((List.range nTestSamples).map
        (fun k : ℕ => networkGainMagnitude network (minA + (k : ℝ) * step))).sum /
        (nTestSamples : ℝ) := by
  have hn0 : (nTestSamples : ℝ) ≠ 0 := Nat.cast_ne_zero.mpr (by omega)
  have hrange : 0 < maxA - minA := by
    rw [hminA, hmaxA]
    have := Real.pi_pos
    nlinarith
  have hstep0 : 0 < step := by
    rw [hstep]
    positivity
  have hnstep : minA + (nTestSamples : ℝ) * step = maxA := by
    rw [hstep]
    field_simp
  have hlt : ∀ k : ℕ, k < nTestSamples → minA + k * step < maxA := by
    intro k hk
    have hkr : (k : ℝ) < (nTestSamples : ℝ) := by exact_mod_cast hk
    calc minA + (k : ℝ) * step < minA + (nTestSamples : ℝ) * step := by
          have := mul_lt_mul_of_pos_right hkr hstep0
          linarith
      _ = maxA := hnstep
  have hge : maxA ≤ minA + (nTestSamples : ℝ) * step := le_of_eq hnstep.symm
  have hmain := sweep_eq_map_range (networkGainMagnitude network) maxA step
    nTestSamples minA fuel hfuel hlt hge
  refine ⟨hmain, hlt, ?_, ?_⟩
  · rw [hmain]
    simp
  · rw [hmain, foldl_add_real, zero_add]

/-- Witness for `objective_sampling_spec`: a single sample of the identity
network over the band from `(2 pi)⁻¹` to `2 (2 pi)⁻¹` Hz. -/
theorem objective_sampling_spec_witness :
    sweep (networkGainMagnitude TwoPortNetwork.identity)
        (2 * (2 * Real.pi)⁻¹ * 2 * Real.pi)
        ((2 * (2 * Real.pi)⁻¹ * 2 * Real.pi - (2 * Real.pi)⁻¹ * 2 * Real.pi) / (1 : ℕ))
        ((2 * Real.pi)⁻¹ * 2 * Real.pi) 1 =
      (List.range 1).map (fun k : ℕ => networkGainMagnitude TwoPortNetwork.identity
        ((2 * Real.pi)⁻¹ * 2 * Real.pi +
          (k : ℝ) * ((2 * (2 * Real.pi)⁻¹ * 2 * Real.pi - (2 * Real.pi)⁻¹ * 2 * Real.pi) / (1 : ℕ)))) :=
  (objective_sampling_spec ((2 * Real.pi)⁻¹) (2 * (2 * Real.pi)⁻¹)
    ((2 * Real.pi)⁻¹ * 2 * Real.pi) (2 * (2 * Real.pi)⁻¹ * 2 * Real.pi)
    ((2 * (2 * Real.pi)⁻¹ * 2 * Real.pi - (2 * Real.pi)⁻¹ * 2 * Real.pi) / (1 : ℕ))
    1 1 TwoPortNetwork.identity rfl rfl rfl
    (by
      have h2 : (0 : ℝ) < (2 * Real.pi)⁻¹ := inv_pos.mpr (by positivity)
      linarith)
    le_rfl le_rfl).1

/-- Folding the running-minimum accumulator from a seed yields a value no
larger than the seed. -/
theorem foldl_jsMinAcc_le (l : List ℝ) (a : ℝ) :
    ∃ b, l.foldl jsMinAcc (some a) = some b ∧ b ≤ a := by
  induction l generalizing a with
  | nil => exact ⟨a, rfl, le_rfl⟩
  | cons hd tl ih =>
    obtain ⟨b, hb, hba⟩ := ih (if hd < a then hd else a)
    refine ⟨b, ?_, ?_⟩
    · simpa [jsMinAcc] using hb
    · refine hba.trans ?_
      split <;> linarith

/-- Folding the running-maximum accumulator from a seed yields a value no
smaller than the seed. -/
theorem foldl_jsMaxAcc_ge (l : List ℝ) (a : ℝ) :
    ∃ b, l.foldl jsMaxAcc (some a) = some b ∧ a ≤ b := by
  induction l generalizing a with
  | nil => exact ⟨a, rfl, le_rfl⟩
  | cons hd tl ih =>
    obtain ⟨b, hb, hba⟩ := ih (if a < hd then hd else a)
    refine ⟨b, ?_, ?_⟩
    · simpa [jsMaxAcc] using hb
    · refine le_trans ?_ hba
      split <;> linarith

/-- The loop's running minimum never exceeds its running maximum. -/
theorem jsMin_le_jsMax (l : List ℝ) (mn mx : ℝ)
    (hmn : l.foldl jsMinAcc none = some mn)
    (hmx : l.foldl jsMaxAcc none = some mx) : mn ≤ mx := by
  cases l with
  | nil => simp at hmn
  | cons hd tl =>
    obtain ⟨b, hb, hba⟩ := foldl_jsMinAcc_le tl hd
    obtain ⟨c, hc, hca⟩ := foldl_jsMaxAcc_ge tl hd
    have h1 : mn = b := by
      have : tl.foldl jsMinAcc (jsMinAcc none hd) = some mn := hmn
      rw [show jsMinAcc none hd = some hd from rfl, hb] at this
      exact (Option.some_injective _ this).symm
    have h2 : mx = c := by
      have : tl.foldl jsMaxAcc (jsMaxAcc none hd) = some mx := hmx
      rw [show jsMaxAcc none hd = some hd from rfl, hc] at this
      exact (Option.some_injective _ this).symm
    rw [h1, h2]
    exact hba.trans hca

/-- C2 (amended): for every network and configuration passing the constructor
asserts, the objective returned by `makeMatchingNetworkObjective` returns cost
`+Infinity` whenever the peak-to-trough deviation of the sampled gain
magnitudes computed by the code, `10 * log10(max) - 10 * log10(min)` (the
power-dB convention, not `20 * log10`), exceeds `maxGainDeviation`, regardless
of the mean gain. -/
theorem objective_inf_of_deviation (minFrequency maxFrequency maxGainDeviation : ℝ)
    (nTestSamples fuel : ℕ) (obj : TwoPortNetwork → JSNum) (network : TwoPortNetwork)
    (mn mx : ℝ)
    (hobj : makeMatchingNetworkObjective minFrequency maxFrequency maxGainDeviation
      nTestSamples fuel = some obj)
    (hmn : (sweep (networkGainMagnitude network) (maxFrequency * 2 * Real.pi)
      ((maxFrequency * 2 * Real.pi - minFrequency * 2 * Real.pi) / nTestSamples)
      (minFrequency * 2 * Real.pi) fuel).foldl jsMinAcc none = some mn)
    (hmx : (sweep (networkGainMagnitude network) (maxFrequency * 2 * Real.pi)
      ((maxFrequency * 2 * Real.pi - minFrequency * 2 * Real.pi) / nTestSamples)
      (minFrequency * 2 * Real.pi) fuel).foldl jsMaxAcc none = some mx)
    (hmnpos : 0 < mn)
    (hdev : maxGainDeviation < 10 * Real.logb 10 mx - 10 * Real.logb 10 mn) :
    obj network = JSNum.inf := by
  have hmxpos : 0 < mx :=
    lt_of_lt_of_le hmnpos (jsMin_le_jsMax _ mn mx hmn hmx)
  have hobj' : obj = matchingObjectiveCore (minFrequency * 2 * Real.pi)
      (maxFrequency * 2 * Real.pi) maxGainDeviation nTestSamples fuel := by
    by_cases h1 : minFrequency = 0
    · simp [makeMatchingNetworkObjective, h1] at hobj
    · by_cases h2 : maxFrequency = 0
      · simp [makeMatchingNetworkObjective, h1, h2] at hobj
      · by_cases h3 : maxGainDeviation = 0
        · simp [makeMatchingNetworkObjective, h1, h2, h3] at hobj
        · simpa [makeMatchingNetworkObjective, h1, h2, h3] using hobj.symm
  subst hobj'
  simp only [matchingObjectiveCore]
  rw [hmn, hmx]
  have e1 : jsDbOpt (some mn) = .fin (10 * Real.logb 10 mn) := by
    simp [jsDbOpt, jsDb, hmnpos]
  have e2 : jsDbOpt (some mx) = .fin (10 * Real.logb 10 mx) := by
    simp [jsDbOpt, jsDb, hmxpos]
  rw [e1, e2]
  have hlt : jsLt (.fin maxGainDeviation)
      (jsSub (.fin (10 * Real.logb 10 mx)) (.fin (10 * Real.logb 10 mn))) := by
    simpa [jsSub, jsLt] using hdev
  rw [if_pos hlt]

open Classical in
/-- A test two-port network whose A-parameter is `1` below `ω = 3/2` and
`lowA` at or above it, so its voltage-gain magnitude steps from `1` to
`|1 / lowA|` across the band. -/
noncomputable def exampleNetwork (lowA : ℝ) : TwoPortNetwork :=
  fun angularFrequency =>
    !![(((if angularFrequency < 3 / 2 then 1 else lowA : ℝ)) : ℂ), 0; 0, 1]

/-- The example network's gain magnitude at `ω = 1`. -/
theorem exampleNetwork_gain_one (lowA : ℝ) :
    networkGainMagnitude (exampleNetwork lowA) 1 = 1 := by
  have h : (1 : ℝ) < 3 / 2 := by norm_num
  simp [networkGainMagnitude, exampleNetwork, TwoPortNetwork.voltageGain, h]

/-- The example network's gain magnitude at `ω = 3/2`. -/
theorem exampleNetwork_gain_step (lowA : ℝ) (h : 0 < lowA) :
    networkGainMagnitude (exampleNetwork lowA) (3 / 2) = lowA⁻¹ := by
  have h32 : ¬ ((3 : ℝ) / 2 < 3 / 2) := by norm_num
  simp [networkGainMagnitude, exampleNetwork, TwoPortNetwork.voltageGain, h32,
    Matrix.cons_val_zero]
  exact h.le

/-- The objective's two-sample sweep of the band `[1, 2)` with step `1/2`. -/
theorem sweep_band_two (g : ℝ → ℝ) :
    sweep g 2 (1 / 2 : ℝ) 1 2 = [g 1, g (3 / 2)] := by
  have h1 : (1 : ℝ) < 2 := by norm_num
  have h2 : (1 : ℝ) + 1 / 2 < 2 := by norm_num
  simp only [sweep, if_pos h1, if_pos h2]
  norm_num

/-- The band bounds of the counterexample configuration. -/
theorem band_bounds :
    (2 * Real.pi)⁻¹ * 2 * Real.pi = (1 : ℝ) ∧
    2 * (2 * Real.pi)⁻¹ * 2 * Real.pi = (2 : ℝ) := by
  have hpi := Real.pi_ne_zero
  constructor <;> field_simp <;> ring

/-- C2 counterexample: with the band `[(2 pi)⁻¹, 2 (2 pi)⁻¹]` Hz
(angular band `[1, 2)`), `maxGainDeviationDb = 15` and two samples, the example
network's sampled gains are `1` and `10`, whose peak-to-trough deviation
`20 * log10(10 / 1) = 20` dB exceeds `15`, yet the objective does not return
`+Infinity`: the code computes the deviation as `10 * log10(max) - 10 *
log10(min) = 10 ≤ 15` and returns a finite cost. -/
theorem objective_deviation_counterexample :
    ∃ obj, makeMatchingNetworkObjective ((2 * Real.pi)⁻¹) (2 * (2 * Real.pi)⁻¹)
        15 2 2 = some obj ∧
      sweep (networkGainMagnitude (exampleNetwork (1 / 10)))
          (2 * (2 * Real.pi)⁻¹ * 2 * Real.pi)
          ((2 * (2 * Real.pi)⁻¹ * 2 * Real.pi - (2 * Real.pi)⁻¹ * 2 * Real.pi) / ((2 : ℕ) : ℝ))
          ((2 * Real.pi)⁻¹ * 2 * Real.pi) 2 = [1, 10] ∧
      (15 : ℝ) < 20 * Real.logb 10 (10 / 1) ∧
      obj (exampleNetwork (1 / 10)) ≠ JSNum.inf := by
  obtain ⟨ha, hb⟩ := band_bounds
  have hmin0 : ((2 * Real.pi)⁻¹ : ℝ) ≠ 0 := by positivity
  have hmax0 : (2 * (2 * Real.pi)⁻¹ : ℝ) ≠ 0 := by positivity
  have hsweep : sweep (networkGainMagnitude (exampleNetwork (1 / 10)))
      (2 * (2 * Real.pi)⁻¹ * 2 * Real.pi)
      ((2 * (2 * Real.pi)⁻¹ * 2 * Real.pi - (2 * Real.pi)⁻¹ * 2 * Real.pi) / ((2 : ℕ) : ℝ))
      ((2 * Real.pi)⁻¹ * 2 * Real.pi) 2 = [1, 10] := by
    rw [ha, hb]
    rw [show ((2 : ℝ) - 1) / ((2 : ℕ) : ℝ) = 1 / 2 by norm_num]
    rw [sweep_band_two]
    rw [exampleNetwork_gain_one, exampleNetwork_gain_step (1 / 10) (by norm_num)]
    norm_num
  refine ⟨matchingObjectiveCore ((2 * Real.pi)⁻¹ * 2 * Real.pi)
      (2 * (2 * Real.pi)⁻¹ * 2 * Real.pi) 15 2 2, ?_, hsweep, ?_, ?_⟩
  · simp [makeMatchingNetworkObjective, hmin0, hmax0, Real.pi_ne_zero]
  · rw [show (10 : ℝ) / 1 = 10 by norm_num,
      Real.logb_self_eq_one (by norm_num : (1 : ℝ) < 10)]
    norm_num
  · simp only [matchingObjectiveCore]
    rw [hsweep]
    have hmn : ([(1 : ℝ), 10]).foldl jsMinAcc none = some 1 := by
      norm_num [jsMinAcc, List.foldl]
    have hmx : ([(1 : ℝ), 10]).foldl jsMaxAcc none = some 10 := by
      norm_num [jsMaxAcc, List.foldl]
    rw [hmn, hmx]
    have e1 : jsDbOpt (some (1 : ℝ)) = .fin 0 := by
      norm_num [jsDbOpt, jsDb, Real.logb_one]
    have e10 : jsDbOpt (some (10 : ℝ)) = .fin 10 := by
      norm_num [jsDbOpt, jsDb,
        Real.logb_self_eq_one (by norm_num : (1 : ℝ) < 10)]
    rw [e1, e10]
    have hnotlt : ¬ jsLt (.fin (15 : ℝ)) (jsSub (.fin (10 : ℝ)) (.fin 0)) := by
      norm_num [jsSub, jsLt]
    rw [if_neg hnotlt]
    have hsum : ([(1 : ℝ), 10]).foldl (· + ·) 0 = 11 := by norm_num [List.foldl]
    rw [hsum]
    have hmean : (11 : ℝ) / ((2 : ℕ) : ℝ) ≠ 0 := by norm_num
    rw [if_neg hmean]
    have : jsDb ((11 : ℝ) / ((2 : ℕ) : ℝ)) =
        .fin (10 * Real.logb 10 ((11 : ℝ) / ((2 : ℕ) : ℝ))) := by
      rw [jsDb, if_pos (by norm_num : (0 : ℝ) < (11 : ℝ) / ((2 : ℕ) : ℝ))]
    rw [this]
    simp [jsNeg]

/-- Witness for `objective_inf_of_deviation`: the example network with gains
`1` and `100` over the same band has code-computed deviation `20 > 15`, and the
objective indeed returns `+Infinity`. -/
theorem objective_inf_of_deviation_witness :
    matchingObjectiveCore ((2 * Real.pi)⁻¹ * 2 * Real.pi)
      (2 * (2 * Real.pi)⁻¹ * 2 * Real.pi) 15 2 2 (exampleNetwork (1 / 100)) =
      JSNum.inf := by
  obtain ⟨ha, hb⟩ := band_bounds
  have hmin0 : ((2 * Real.pi)⁻¹ : ℝ) ≠ 0 := by positivity
  have hmax0 : (2 * (2 * Real.pi)⁻¹ : ℝ) ≠ 0 := by positivity
  have hsweep : sweep (networkGainMagnitude (exampleNetwork (1 / 100)))
      (2 * (2 * Real.pi)⁻¹ * 2 * Real.pi)
      ((2 * (2 * Real.pi)⁻¹ * 2 * Real.pi - (2 * Real.pi)⁻¹ * 2 * Real.pi) / ((2 : ℕ) : ℝ))
      ((2 * Real.pi)⁻¹ * 2 * Real.pi) 2 = [1, 100] := by
    rw [ha, hb]
    rw [show ((2 : ℝ) - 1) / ((2 : ℕ) : ℝ) = 1 / 2 by norm_num]
    rw [sweep_band_two]
    rw [exampleNetwork_gain_one, exampleNetwork_gain_step (1 / 100) (by norm_num)]
    norm_num
  have hlogb : Real.logb 10 (100 : ℝ) = 2 := by
    rw [show (100 : ℝ) = 10 ^ (2 : ℕ) by norm_num, Real.logb_pow,
      Real.logb_self_eq_one (by norm_num : (1 : ℝ) < 10)]
    norm_num
  exact objective_inf_of_deviation ((2 * Real.pi)⁻¹) (2 * (2 * Real.pi)⁻¹) 15 2 2
    (matchingObjectiveCore ((2 * Real.pi)⁻¹ * 2 * Real.pi)
      (2 * (2 * Real.pi)⁻¹ * 2 * Real.pi) 15 2 2)
    (exampleNetwork (1 / 100)) 1 100
    (by simp [makeMatchingNetworkObjective, hmin0, hmax0, Real.pi_ne_zero])
    (by rw [hsweep]; norm_num [jsMinAcc, List.foldl])
    (by rw [hsweep]; norm_num [jsMaxAcc, List.foldl])
    (by norm_num)
    (by rw [hlogb, Real.logb_one]; norm_num)

/-- C4 counterexample: on the single-element table `[1]` at index `0`,
`update()` returns index `1` (the `valueIndex == 0` branch of `_nextIndex`
fires first), which violates the invariant `index < length`: the new value
reads as JS `undefined` rather than a member of the table, so a single-element
table is not a fixed point of `update`. -/
theorem update_singleton_counterexample :
    (VariableComponentValue.update ⟨[(1 : WithTop ℚ)], 0⟩ true).valueIndex = 1 ∧
    ¬ ((VariableComponentValue.update ⟨[(1 : WithTop ℚ)], 0⟩ true).valueIndex <
        ([(1 : WithTop ℚ)] : List (WithTop ℚ)).length) ∧
    VariableComponentValue.value
      (VariableComponentValue.update ⟨[(1 : WithTop ℚ)], 0⟩ true) = none := by
  decide

/-- C4 (amended): for every `VariableComponentValue` over a table with at least
two entries and index satisfying `0 ≤ valueIndex < feasibleValues.length`,
`update()` returns a component value over the same table whose index again
satisfies the invariant and lies exactly one step from the old index, so its
value is a member of the same table.  (On a single-element table `update()`
instead returns the out-of-range index `1`, whose value is `undefined`.) -/
theorem update_spec (c : VariableComponentValue) (coin : Bool)
    (hlen : 2 ≤ c.feasibleValues.length)
    (hidx : c.valueIndex < c.feasibleValues.length) :
    (VariableComponentValue.update c coin).feasibleValues = c.feasibleValues ∧
    (VariableComponentValue.update c coin).valueIndex < c.feasibleValues.length ∧
    ((VariableComponentValue.update c coin).valueIndex = c.valueIndex + 1 ∨
      (VariableComponentValue.update c coin).valueIndex + 1 = c.valueIndex) ∧
    ∃ v, VariableComponentValue.value (VariableComponentValue.update c coin) = some v ∧
      v ∈ c.feasibleValues := by
  have hidx' : VariableComponentValue.nextIndex c coin < c.feasibleValues.length ∧
      (VariableComponentValue.nextIndex c coin = c.valueIndex + 1 ∨
        VariableComponentValue.nextIndex c coin + 1 = c.valueIndex) := by
    unfold VariableComponentValue.nextIndex
    split_ifs with h0 hlast hcoin <;> omega
  have hj : (VariableComponentValue.update c coin).valueIndex < c.feasibleValues.length :=
    hidx'.1
  refine ⟨rfl, hidx'.1, hidx'.2, ?_⟩
  refine ⟨c.feasibleValues[(VariableComponentValue.update c coin).valueIndex], ?_,
    List.getElem_mem hj⟩
  show c.feasibleValues[(VariableComponentValue.update c coin).valueIndex]? = _
  rw [List.getElem?_eq_getElem hj]

/-- Witness for `update_spec`: on the two-element table `[1, 2]` at index `0`,
`update` moves to index `1` and the new value `2` is in the table. -/
theorem update_spec_witness :
    (VariableComponentValue.update ⟨[(1 : WithTop ℚ), (2 : WithTop ℚ)], 0⟩ true).feasibleValues =
      ([(1 : WithTop ℚ), (2 : WithTop ℚ)] : List (WithTop ℚ)) ∧
    (VariableComponentValue.update ⟨[(1 : WithTop ℚ), (2 : WithTop ℚ)], 0⟩ true).valueIndex <
      ([(1 : WithTop ℚ), (2 : WithTop ℚ)] : List (WithTop ℚ)).length ∧
    ((VariableComponentValue.update ⟨[(1 : WithTop ℚ), (2 : WithTop ℚ)], 0⟩ true).valueIndex = 0 + 1 ∨
      (VariableComponentValue.update ⟨[(1 : WithTop ℚ), (2 : WithTop ℚ)], 0⟩ true).valueIndex + 1 = 0) ∧
    ∃ v, VariableComponentValue.value
        (VariableComponentValue.update ⟨[(1 : WithTop ℚ), (2 : WithTop ℚ)], 0⟩ true) = some v ∧
      v ∈ ([(1 : WithTop ℚ), (2 : WithTop ℚ)] : List (WithTop ℚ)) :=
  update_spec ⟨[(1 : WithTop ℚ), (2 : WithTop ℚ)], 0⟩ true (by decide) (by decide)

/-- `findIndexJS` never returns anything below `-1`. -/
theorem findIndexJS_ge_neg_one {α : Type _} (p : α → Bool) (l : List α) :
    -1 ≤ findIndexJS p l := by
  induction l with
  | nil => simp [findIndexJS]
  | cons hd tl ih =>
    by_cases hp : p hd
    · simp [findIndexJS, hp]
    · simp only [findIndexJS, hp, if_false, Bool.false_eq_true]
      split <;> omega

/-- `findIndexJS` misses (returns `-1`) exactly when no element satisfies the
predicate. -/
theorem findIndexJS_eq_neg_one {α : Type _} (p : α → Bool) (l : List α) :
    findIndexJS p l = -1 ↔ ∀ a ∈ l, p a = false := by
  induction l with
  | nil => simp [findIndexJS]
  | cons hd tl ih =>
    by_cases hp : p hd
    · simp [findIndexJS, hp]
    · have hge := findIndexJS_ge_neg_one p tl
      simp only [findIndexJS, hp, if_false, Bool.false_eq_true, List.mem_cons]
      constructor
      · intro h a ha
        rcases ha with rfl | ha
        · simpa using hp
        · refine (ih.mp ?_) a ha
          by_contra hne
          rw [if_neg hne] at h
          omega
      · intro h
        rw [if_pos (ih.mpr (fun a ha => h a (Or.inr ha)))]

/-- Every member of a strictly ascending list is at most its last element. -/
theorem mem_le_getLast_of_sorted (s : List (WithTop ℚ)) (hne : s ≠ [])
    (hs : s.Pairwise (· < ·)) : ∀ a ∈ s, a ≤ s.getLast hne := by
  intro a ha
  obtain ⟨i, hi, rfl⟩ := List.mem_iff_getElem.mp ha
  rw [List.getLast_eq_getElem s hne]
  rcases Nat.lt_or_ge i (s.length - 1) with hlt | hge
  · exact le_of_lt (List.pairwise_iff_getElem.mp hs i (s.length - 1) hi (by omega) hlt)
  · have : i = s.length - 1 := by omega
    subst this
    exact le_rfl

/-- C10 counterexample: the value `0` over the non-empty strictly ascending
table `[-5]` is strictly greater than the table's last element, yet
`nearestNeighborIndex` does not return `-2`: its leading `assert(value)`
truthiness check throws on the falsy number `0` (modelled `none`) before any
array read happens. -/
theorem nearestNeighborIndexChecked_zero_counterexample :
    (([((-5 : ℚ) : WithTop ℚ)] : List (WithTop ℚ)) ≠ []) ∧
    ([((-5 : ℚ) : WithTop ℚ)] : List (WithTop ℚ)).Pairwise (· < ·) ∧
    ([((-5 : ℚ) : WithTop ℚ)] : List (WithTop ℚ)).getLast (by decide) <
      ((0 : ℚ) : WithTop ℚ) ∧
    nearestNeighborIndexChecked 0 [((-5 : ℚ) : WithTop ℚ)] = none := by
  refine ⟨by decide, by decide, by decide, ?_⟩
  rw [nearestNeighborIndexChecked, if_pos rfl]

/-- C10 (amended): for every non-empty strictly ascending table `s` and every
nonzero value `v` strictly greater than the last element of `s` (so the
function's leading `assert(value)` truthiness check passes),
`nearestNeighborIndex(v, s)` returns `-2`, which is not a valid index into `s`
(the array reads at `-2` and `-1` both give `undefined` instead of clamping to
the highest index; the resulting NaN distance comparison is false and the
`lowerValueIndex = -2` is returned). -/
theorem nearestNeighborIndex_above_table (s : List (WithTop ℚ)) (v : ℚ)
    (hne : s ≠ []) (hs : s.Pairwise (· < ·)) (hv : v ≠ 0)
    (hlast : s.getLast hne < (v : WithTop ℚ)) :
    nearestNeighborIndexChecked v s = some (-2) ∧
    nearestNeighborIndex v s = -2 ∧ getJS s (-2) = none := by
  have hall : ∀ a ∈ s, (decide ((v : WithTop ℚ) ≤ a)) = false := by
    intro a ha
    have := lt_of_le_of_lt (mem_le_getLast_of_sorted s hne hs a ha) hlast
    simpa [decide_eq_false_iff_not] using not_le.mpr this
  have hfind : findIndexJS (fun feasibleValue =>
      decide ((v : WithTop ℚ) ≤ feasibleValue)) s = -1 :=
    (findIndexJS_eq_neg_one _ s).mpr hall
  have hraw : nearestNeighborIndex v s = -2 := by
    unfold nearestNeighborIndex
    rw [hfind]
    norm_num
    rfl
  refine ⟨?_, hraw, rfl⟩
  rw [nearestNeighborIndexChecked, if_neg hv, hraw]

/-- Witness for `nearestNeighborIndex_above_table`: the singleton table `[1]`
and the nonzero value `2`. -/
theorem nearestNeighborIndex_above_table_witness :
    nearestNeighborIndexChecked 2 [(1 : WithTop ℚ)] = some (-2) ∧
    nearestNeighborIndex 2 [(1 : WithTop ℚ)] = -2 ∧
    getJS [(1 : WithTop ℚ)] (-2) = none :=
  nearestNeighborIndex_above_table [(1 : WithTop ℚ)] 2 (by decide)
    (by decide) (by decide) (by decide)

/-- The JS absolute distance to any table entry is nonnegative. -/
theorem jsAbsDiff_nonneg (v : ℚ) (x : WithTop ℚ) : (0 : WithTop ℚ) ≤ jsAbsDiff v x := by
  induction x using WithTop.recTopCoe with
  | top => exact le_top
  | coe q =>
    rw [jsAbsDiff, WithTop.map_coe, ← WithTop.coe_zero, WithTop.coe_le_coe]
    exact abs_nonneg _

/-- The JS absolute distance from `v` to `v` itself is zero. -/
theorem jsAbsDiff_self (v : ℚ) : jsAbsDiff v (v : WithTop ℚ) = 0 := by
  rw [jsAbsDiff, WithTop.map_coe, sub_self, abs_zero, WithTop.coe_zero]

/-- Zero JS distance forces equality with the probe value. -/
theorem jsAbsDiff_eq_zero (v : ℚ) (x : WithTop ℚ) (h : jsAbsDiff v x = 0) :
    x = (v : WithTop ℚ) := by
  induction x using WithTop.recTopCoe with
  | top => simpa [jsAbsDiff] using h
  | coe q =>
    rw [jsAbsDiff, WithTop.map_coe, ← WithTop.coe_zero, WithTop.coe_eq_coe] at h
    rw [WithTop.coe_eq_coe]
    have := abs_eq_zero.mp h
    linarith

/-- Above the probe value, JS distance is strictly monotone. -/
theorem jsAbsDiff_right_mono (v : ℚ) (a b : WithTop ℚ)
    (hva : (v : WithTop ℚ) ≤ a) (hab : a < b) :
    jsAbsDiff v a < jsAbsDiff v b := by
  induction a using WithTop.recTopCoe with
  | top => exact absurd hab (by simp)
  | coe x =>
    induction b using WithTop.recTopCoe with
    | top =>
      rw [jsAbsDiff, jsAbsDiff, WithTop.map_coe]
      exact WithTop.coe_lt_top _
    | coe y =>
      rw [WithTop.coe_le_coe] at hva
      rw [WithTop.coe_lt_coe] at hab
      rw [jsAbsDiff, jsAbsDiff, WithTop.map_coe, WithTop.map_coe, WithTop.coe_lt_coe,
        abs_of_nonpos (by linarith : v - x ≤ 0), abs_of_nonpos (by linarith : v - y ≤ 0)]
      linarith

/-- Below the probe value, JS distance is strictly antitone. -/
theorem jsAbsDiff_left_mono (v : ℚ) (a b : WithTop ℚ)
    (hab : a < b) (hbv : b < (v : WithTop ℚ)) :
    jsAbsDiff v b < jsAbsDiff v a := by
  induction b using WithTop.recTopCoe with
  | top => exact absurd hbv (by simp)
  | coe y =>
    induction a using WithTop.recTopCoe with
    | top => exact absurd hab (by simp)
    | coe x =>
      rw [WithTop.coe_lt_coe] at hab hbv
      rw [jsAbsDiff, jsAbsDiff, WithTop.map_coe, WithTop.map_coe, WithTop.coe_lt_coe,
        abs_of_nonneg (by linarith : (0 : ℚ) ≤ v - x),
        abs_of_nonneg (by linarith : (0 : ℚ) ≤ v - y)]
      linarith

/-- When `findIndexJS` returns a nonnegative index, that index is in range,
its element satisfies the predicate, and no earlier element does. -/
theorem findIndexJS_spec {α : Type _} (p : α → Bool) :
    ∀ (l : List α) (i : ℕ), findIndexJS p l = (i : ℤ) →
      ∃ hi : i < l.length, p (l.get ⟨i, hi⟩) = true ∧
        ∀ j (hj : j < l.length), j < i → p (l.get ⟨j, hj⟩) = false := by
  intro l
  induction l with
  | nil =>
    intro i h
    simp only [findIndexJS] at h
    omega
  | cons hd tl ih =>
    intro i h
    by_cases hp : p hd
    · simp only [findIndexJS, hp, if_true] at h
      have hi0 : i = 0 := by omega
      subst hi0
      exact ⟨by simp, by simpa using hp, fun j hj hji => absurd hji (by omega)⟩
    · simp only [findIndexJS, hp, Bool.false_eq_true, if_false] at h
      have hge := findIndexJS_ge_neg_one p tl
      by_cases hr : findIndexJS p tl = -1
      · rw [if_pos hr] at h
        omega
      · rw [if_neg hr] at h
        obtain ⟨k, hk⟩ := Int.eq_ofNat_of_zero_le (show 0 ≤ findIndexJS p tl by omega)
        obtain ⟨hklen, hpk, hfirst⟩ := ih k hk
        have hik : i = k + 1 := by omega
        subst hik
        refine ⟨by simpa using Nat.succ_lt_succ hklen, by simpa using hpk, ?_⟩
        intro j hj hji
        cases j with
        | zero => simpa using hp
        | succ j' =>
          have hj' : j' < tl.length := by simpa using Nat.lt_of_succ_lt_succ hj
          simpa using hfirst j' hj' (by omega)

/-- JS indexing at an in-range natural index. -/
theorem getJS_coe (l : List (WithTop ℚ)) (i : ℕ) (h : i < l.length) :
    getJS l (i : ℤ) = some (l.get ⟨i, h⟩) := by
  rw [getJS, if_pos (by omega : (0 : ℤ) ≤ (i : ℤ)), Int.toNat_natCast]
  simp [List.getElem?_eq_getElem h]

/-- When the table is strictly ascending and some entry is at least the probe
value, `nearestNeighborIndex` returns an in-range index whose entry is a
nearest member of the table, ties resolved to the upper neighbour. -/
theorem nearestNeighborIndex_spec (v : ℚ) (s : List (WithTop ℚ))
    (hs : s.Pairwise (· < ·)) (hex : ∃ u ∈ s, (v : WithTop ℚ) ≤ u) :
    ∃ i : ℕ, nearestNeighborIndex v s = (i : ℤ) ∧
      ∃ hi : i < s.length, isNearest v s (s.get ⟨i, hi⟩) := by
  set p : WithTop ℚ → Bool :=
    fun feasibleValue => decide ((v : WithTop ℚ) ≤ feasibleValue) with hp
  have hnm : findIndexJS p s ≠ -1 := by
    intro hcon
    obtain ⟨u, hu, hvu⟩ := hex
    have hfalse := (findIndexJS_eq_neg_one p s).mp hcon u hu
    rw [hp] at hfalse
    exact absurd hvu (of_decide_eq_false hfalse)
  have h0le : 0 ≤ findIndexJS p s := by
    have := findIndexJS_ge_neg_one p s
    omega
  obtain ⟨i, hi_eq⟩ := Int.eq_ofNat_of_zero_le h0le
  obtain ⟨hilen, hpi, hfirst⟩ := findIndexJS_spec p s i hi_eq
  have hvi : (v : WithTop ℚ) ≤ s.get ⟨i, hilen⟩ := of_decide_eq_true hpi
  have hlow : ∀ j (hj : j < s.length), j < i → s.get ⟨j, hj⟩ < (v : WithTop ℚ) := by
    intro j hj hji
    have hfalse := hfirst j hj hji
    rw [hp] at hfalse
    exact not_le.mp (of_decide_eq_false hfalse)
  have hget : ∀ (j k : ℕ) (hj : j < s.length) (hk : k < s.length), j < k →
      s.get ⟨j, hj⟩ < s.get ⟨k, hk⟩ := by
    intro j k hj hk hjk
    have := List.pairwise_iff_getElem.mp hs j k hj hk hjk
    simpa using this
  rcases Nat.eq_zero_or_pos i with hi0 | hipos
  · subst hi0
    refine ⟨0, ?_, hilen, ?_⟩
    · simp only [nearestNeighborIndex, ← hp, hi_eq]
      norm_num
    · refine ⟨List.get_mem s 0 hilen, ?_⟩
      intro u hu
      obtain ⟨⟨j, hj⟩, rfl⟩ := List.mem_iff_get.mp hu
      rcases Nat.eq_zero_or_pos j with hj0 | hjpos
      · subst hj0
        exact Or.inr ⟨rfl, le_rfl⟩
      · exact Or.inl (jsAbsDiff_right_mono v _ _ hvi (hget 0 j hilen hj hjpos))
  · have hi1len : i - 1 < s.length := by omega
    set U := s.get ⟨i, hilen⟩ with hU
    set L := s.get ⟨i - 1, hi1len⟩ with hL
    have hne0 : ((i : ℤ) ≠ 0) := by omega
    have hgetU : getJS s (i : ℤ) = some U := getJS_coe s i hilen
    have hgetL : getJS s ((i : ℤ) - 1) = some L := by
      rw [show (i : ℤ) - 1 = ((i - 1 : ℕ) : ℤ) by omega, getJS_coe s (i - 1) hi1len]
    have hval : nearestNeighborIndex v s =
        (if jsAbsDiff v U ≤ jsAbsDiff v L then (i : ℤ) else (i : ℤ) - 1) := by
      simp only [nearestNeighborIndex, ← hp, hi_eq, if_neg hne0, hgetL, hgetU]
    have hLv : L < (v : WithTop ℚ) := hlow (i - 1) hi1len (by omega)
    have hLU : L < U := hget (i - 1) i hi1len hilen (by omega)
    by_cases hcmp : jsAbsDiff v U ≤ jsAbsDiff v L
    · refine ⟨i, by rw [hval, if_pos hcmp], hilen, List.get_mem s i hilen, ?_⟩
      intro u hu
      obtain ⟨⟨j, hj⟩, rfl⟩ := List.mem_iff_get.mp hu
      rcases lt_trichotomy j i with hji | hji | hji
      · by_cases hj1 : j = i - 1
        · subst hj1
          rcases lt_or_eq_of_le hcmp with hlt | heq
          · exact Or.inl hlt
          · exact Or.inr ⟨heq, le_of_lt hLU⟩
        · have hjlt : j < i - 1 := by omega
          have hjL : s.get ⟨j, hj⟩ < L := hget j (i - 1) hj hi1len hjlt
          have hjv : s.get ⟨j, hj⟩ < (v : WithTop ℚ) := lt_trans hjL hLv
          exact Or.inl (lt_of_le_of_lt hcmp (jsAbsDiff_left_mono v _ _ hjL hLv))
      · subst hji
        exact Or.inr ⟨rfl, le_rfl⟩
      · exact Or.inl (jsAbsDiff_right_mono v _ _ hvi (hget i j hilen hj hji))
    · have hlt : jsAbsDiff v L < jsAbsDiff v U := not_le.mp hcmp
      refine ⟨i - 1, ?_, hi1len, List.get_mem s (i - 1) hi1len, ?_⟩
      · rw [hval, if_neg hcmp]
        omega
      · intro u hu
        obtain ⟨⟨j, hj⟩, rfl⟩ := List.mem_iff_get.mp hu
        rcases lt_trichotomy j i with hji | hji | hji
        · by_cases hj1 : j = i - 1
          · subst hj1
            exact Or.inr ⟨rfl, le_rfl⟩
          · have hjlt : j < i - 1 := by omega
            have hjL : s.get ⟨j, hj⟩ < L := hget j (i - 1) hj hi1len hjlt
            exact Or.inl (jsAbsDiff_left_mono v _ _ hjL hLv)
        · subst hji
          exact Or.inl hlt
        · refine Or.inl (lt_trans hlt ?_)
          exact jsAbsDiff_right_mono v _ _ hvi (hget i j hilen hj hji)

/-- Every E24 entry lies in `[1, 9.1]`. -/
theorem E24_bounds : ∀ e ∈ E24_VALUES, 1 ≤ e ∧ e ≤ 91 / 10 := by
  norm_num [E24_VALUES]

/-- The E24 table has no duplicates. -/
theorem E24_nodup : E24_VALUES.Nodup := by
  norm_num [E24_VALUES, List.nodup_cons]

/-- Membership in one decade's candidate list. -/
theorem mem_decadeCandidates (minValue maxValue : ℚ) (k : ℤ) (q : ℚ) :
    q ∈ decadeCandidates minValue maxValue k ↔
      (∃ e ∈ E24_VALUES, e * (10 : ℚ) ^ k = q) ∧ minValue ≤ q ∧ q ≤ maxValue := by
  simp [decadeCandidates, List.mem_filter, decide_eq_true_eq]

/-- One decade's candidates lie between `10^k` and `9.1 * 10^k`. -/
theorem decadeCandidates_bounds (minValue maxValue : ℚ) (k : ℤ) (q : ℚ)
    (h : q ∈ decadeCandidates minValue maxValue k) :
    (10 : ℚ) ^ k ≤ q ∧ q ≤ (91 / 10) * (10 : ℚ) ^ k := by
  obtain ⟨⟨e, he, rfl⟩, -, -⟩ := (mem_decadeCandidates _ _ _ _).mp h
  obtain ⟨h1, h2⟩ := E24_bounds e he
  have hpow : (0 : ℚ) < (10 : ℚ) ^ k := zpow_pos (by norm_num) k
  constructor
  · nlinarith
  · nlinarith

/-- One decade's candidate list has no duplicates. -/
theorem decadeCandidates_nodup (minValue maxValue : ℚ) (k : ℤ) :
    (decadeCandidates minValue maxValue k).Nodup := by
  apply List.Nodup.filter
  refine List.Nodup.map ?_ E24_nodup
  intro a b hab
  have hpow : ((10 : ℚ) ^ k) ≠ 0 := zpow_ne_zero k (by norm_num)
  exact mul_right_cancel₀ hpow hab

/-- The decade list is strictly increasing. -/
theorem decadeRange_pairwise (minValue maxValue : ℚ) :
    (decadeRange minValue maxValue).Pairwise (· < ·) := by
  unfold decadeRange
  refine (List.pairwise_lt_range _).map _ (fun a b h => ?_)
  exact add_lt_add_left (by exact_mod_cast h) (Int.log 10 minValue)

/-- The concatenated candidate list over all decades has no duplicates:
candidates from distinct decades differ in scale since every E24 value lies in
`[1, 9.1]`. -/
theorem raw_candidates_nodup (minValue maxValue : ℚ) :
    ((decadeRange minValue maxValue).flatMap
      (decadeCandidates minValue maxValue)).Nodup := by
  rw [List.nodup_flatMap]
  refine ⟨fun k _ => decadeCandidates_nodup minValue maxValue k, ?_⟩
  refine (decadeRange_pairwise minValue maxValue).imp ?_
  intro k k' hkk'
  intro q hq hq'
  obtain ⟨h1, h2⟩ := decadeCandidates_bounds _ _ k q hq
  obtain ⟨h1', h2'⟩ := decadeCandidates_bounds _ _ k' q hq'
  have hle : (10 : ℚ) ^ (k + 1) ≤ (10 : ℚ) ^ k' :=
    zpow_le_zpow_right₀ (by norm_num) (by omega)
  have h10 : (10 : ℚ) ^ (k + 1) = 10 * (10 : ℚ) ^ k := by
    rw [zpow_add_one₀ (by norm_num : (10 : ℚ) ≠ 0)]
    ring
  have hpos : (0 : ℚ) < (10 : ℚ) ^ k := zpow_pos (by norm_num) k
  nlinarith

/-- The feasible-value list is sorted (non-strictly). -/
theorem feasible_sorted (minValue maxValue : ℚ) :
    (feasiblePreferredValues minValue maxValue).Pairwise (· ≤ ·) := by
  unfold feasiblePreferredValues
  have h := @List.sorted_mergeSort ℚ (fun a b => decide (a ≤ b))
    (fun a b c hab hbc => by
      simp only [decide_eq_true_eq] at *
      exact le_trans hab hbc)
    (fun a b => by
      simpa [Bool.or_eq_true, decide_eq_true_eq] using le_total a b)
    ((decadeRange minValue maxValue).flatMap (decadeCandidates minValue maxValue))
  exact h.imp (fun hab => of_decide_eq_true hab)

/-- The feasible-value list has no duplicates. -/
theorem feasible_nodup (minValue maxValue : ℚ) :
    (feasiblePreferredValues minValue maxValue).Nodup := by
  unfold feasiblePreferredValues
  exact (List.mergeSort_perm _ _).nodup_iff.mpr (raw_candidates_nodup minValue maxValue)

/-- The feasible-value list is strictly ascending. -/
theorem feasible_pairwise_lt (minValue maxValue : ℚ) :
    (feasiblePreferredValues minValue maxValue).Pairwise (· < ·) :=
  List.Sorted.lt_of_le (feasible_sorted minValue maxValue)
    (feasible_nodup minValue maxValue)

/-- Every feasible value lies in `[minValue, maxValue]`. -/
theorem feasible_mem_range (minValue maxValue q : ℚ)
    (h : q ∈ feasiblePreferredValues minValue maxValue) :
    minValue ≤ q ∧ q ≤ maxValue := by
  unfold feasiblePreferredValues at h
  rw [List.mem_mergeSort] at h
  obtain ⟨k, -, hq⟩ := List.mem_flatMap.mp h
  exact ((mem_decadeCandidates _ _ _ _).mp hq).2

/-- The full component table (feasible values, optionally with `0` prepended
and `Infinity` appended) is strictly ascending whenever `0 < minValue`. -/
theorem componentTable_pairwise (minValue maxValue : ℚ) (hmin : 0 < minValue)
    (allowZero allowInfinite : Bool) :
    (componentTable minValue maxValue allowZero allowInfinite).Pairwise (· < ·) := by
  have hbase : ((feasiblePreferredValues minValue maxValue).map
      (fun q : ℚ => ((q : ℚ) : WithTop ℚ))).Pairwise (· < ·) := by
    rw [List.pairwise_map]
    exact (feasible_pairwise_lt minValue maxValue).imp
      (fun h => WithTop.coe_lt_coe.mpr h)
  have hmem_base : ∀ a ∈ (feasiblePreferredValues minValue maxValue).map
      (fun q : ℚ => ((q : ℚ) : WithTop ℚ)), (0 : WithTop ℚ) < a ∧ a ≠ ⊤ := by
    intro a ha
    obtain ⟨q, hq, rfl⟩ := List.mem_map.mp ha
    have hqpos : 0 < q := lt_of_lt_of_le hmin (feasible_mem_range _ _ q hq).1
    exact ⟨by exact_mod_cast hqpos, WithTop.coe_ne_top⟩
  have hzero : ((0 : WithTop ℚ) ::
      (feasiblePreferredValues minValue maxValue).map
        (fun q : ℚ => ((q : ℚ) : WithTop ℚ))).Pairwise (· < ·) :=
    List.pairwise_cons.mpr ⟨fun b hb => (hmem_base b hb).1, hbase⟩
  unfold componentTable
  cases allowZero <;> cases allowInfinite <;>
    simp only [Bool.false_eq_true, if_false, if_true]
  · exact hbase
  · refine List.pairwise_append.mpr ⟨hbase, List.pairwise_singleton _ _, ?_⟩
    intro a ha b hb
    rw [List.mem_singleton.mp hb]
    exact lt_top_iff_ne_top.mpr (hmem_base a ha).2
  · exact hzero
  · refine List.pairwise_append.mpr ⟨hzero, List.pairwise_singleton _ _, ?_⟩
    intro a ha b hb
    rw [List.mem_singleton.mp hb]
    rcases List.mem_cons.mp ha with rfl | ha'
    · exact lt_top_iff_ne_top.mpr (by simp)
    · exact lt_top_iff_ne_top.mpr (hmem_base a ha').2

/-- `2.7` is itself a preferred value of the table for bounds `[1, 10]`. -/
theorem mem_feasible_27 : (27 / 10 : ℚ) ∈ feasiblePreferredValues 1 10 := by
  unfold feasiblePreferredValues
  rw [List.mem_mergeSort, List.mem_flatMap]
  refine ⟨0, ?_, ?_⟩
  · unfold decadeRange
    have hlog : Int.log 10 (1 : ℚ) = 0 := Int.log_one_right 10
    have h10 : ((10 : ℕ) : ℚ) ^ (1 : ℤ) = (10 : ℚ) := by norm_num
    have hclog : Int.clog 10 (10 : ℚ) = 1 := by
      rw [← h10]
      exact Int.clog_zpow (by norm_num) 1
    rw [hlog, hclog]
    refine List.mem_map.mpr ⟨0, List.mem_range.mpr ?_, by norm_num⟩
    norm_num
  · rw [mem_decadeCandidates]
    exact ⟨⟨27 / 10, by norm_num [E24_VALUES], by norm_num⟩, by norm_num, by norm_num⟩

/-- C5 (amended): for every `initialValue > 0` and bounds `0 < minValue ≤
maxValue` and any flags, whenever some entry of the constructed feasible table
is at least `initialValue` (always the case when `allowInfinite` holds),
`initComponent` succeeds and returns a component whose table is the constructed
one and whose value is the member of that table nearest to `initialValue`, ties
to the upper neighbour; in particular `initComponent(2.7, 10.0, 1.0).value =
2.7`.  (With `initialValue = 0` the callee's `assert(value)` throws, and with
`initialValue` above every table entry `nearestNeighborIndex` returns `-2` and
the constructor's `assert(valueIndex >= 0)` throws.) -/
theorem initComponent_spec :
    (∀ (initialValue minValue maxValue : ℚ) (allowZero allowInfinite : Bool),
      0 < initialValue → 0 < minValue → minValue ≤ maxValue →
      (∃ u ∈ componentTable minValue maxValue allowZero allowInfinite,
        (initialValue : WithTop ℚ) ≤ u) →
      ∃ c, VariableComponentValue.initComponent initialValue maxValue minValue
          allowZero allowInfinite = some c ∧
        c.feasibleValues = componentTable minValue maxValue allowZero allowInfinite ∧
        ∃ w, VariableComponentValue.value c = some w ∧
          isNearest initialValue c.feasibleValues w) ∧
    (∃ c, VariableComponentValue.initComponent (27 / 10) 10 1 false false = some c ∧
      VariableComponentValue.value c = some ((27 / 10 : ℚ) : WithTop ℚ)) := by
  have main : ∀ (initialValue minValue maxValue : ℚ) (allowZero allowInfinite : Bool),
      0 < initialValue → 0 < minValue → minValue ≤ maxValue →
      (∃ u ∈ componentTable minValue maxValue allowZero allowInfinite,
        (initialValue : WithTop ℚ) ≤ u) →
      ∃ c, VariableComponentValue.initComponent initialValue maxValue minValue
          allowZero allowInfinite = some c ∧
        c.feasibleValues = componentTable minValue maxValue allowZero allowInfinite ∧
        ∃ w, VariableComponentValue.value c = some w ∧
          isNearest initialValue c.feasibleValues w := by
    intro initialValue minValue maxValue allowZero allowInfinite h0 hmin hminmax hex
    obtain ⟨i, heq, hi, hnear⟩ := nearestNeighborIndex_spec initialValue
      (componentTable minValue maxValue allowZero allowInfinite)
      (componentTable_pairwise minValue maxValue hmin allowZero allowInfinite) hex
    refine ⟨⟨componentTable minValue maxValue allowZero allowInfinite, i⟩, ?_, rfl, ?_⟩
    · simp only [VariableComponentValue.initComponent]
      rw [if_neg (not_not_intro h0.le), if_neg (not_not_intro hmin),
        if_neg (not_not_intro hminmax), if_neg h0.ne', heq,
        if_pos (by omega : (0 : ℤ) ≤ (i : ℤ))]
      simp
    · refine ⟨(componentTable minValue maxValue allowZero allowInfinite).get ⟨i, hi⟩,
        ?_, hnear⟩
      show (componentTable minValue maxValue allowZero allowInfinite)[i]? = _
      rw [List.getElem?_eq_getElem hi]
      simp
  refine ⟨main, ?_⟩
  have hmem27 : ((27 / 10 : ℚ) : WithTop ℚ) ∈ componentTable 1 10 false false := by
    simp only [componentTable, Bool.false_eq_true, if_false]
    exact List.mem_map.mpr ⟨27 / 10, mem_feasible_27, rfl⟩
  obtain ⟨c, hc, htab, w, hw, hnear⟩ := main (27 / 10) 1 10 false false
    (by norm_num) (by norm_num) (by norm_num) ⟨((27 / 10 : ℚ) : WithTop ℚ),
      hmem27, le_rfl⟩
  have hmemc : ((27 / 10 : ℚ) : WithTop ℚ) ∈ c.feasibleValues := by
    rw [htab]
    exact hmem27
  have hw27 : w = ((27 / 10 : ℚ) : WithTop ℚ) := by
    rcases hnear.2 _ hmemc with hlt | ⟨heq0, _⟩
    · rw [jsAbsDiff_self] at hlt
      exact absurd hlt (not_lt.mpr (jsAbsDiff_nonneg _ _))
    · rw [jsAbsDiff_self] at heq0
      exact jsAbsDiff_eq_zero _ _ heq0
  exact ⟨c, hc, by rw [hw, hw27]⟩

/-- Witness for `initComponent_spec`: with `allowInfinite` the table contains
`Infinity`, so initialisation at `2.7` over `[1, 10]` succeeds. -/
theorem initComponent_spec_witness :
    ∃ c, VariableComponentValue.initComponent (27 / 10) 10 1 false true = some c ∧
      c.feasibleValues = componentTable 1 10 false true ∧
      ∃ w, VariableComponentValue.value c = some w ∧
        isNearest (27 / 10) c.feasibleValues w :=
  initComponent_spec.1 (27 / 10) 1 10 false true (by norm_num) (by norm_num)
    (by norm_num) ⟨⊤, by simp [componentTable], le_top⟩

/-- C5 counterexample: `initializeComponent(20, 10.0, 1.0)` satisfies the
claim's preconditions (`initial ≥ 0`, `0 < min ≤ max`) but does not succeed:
`20` exceeds every table entry, `nearestNeighborIndex` returns `-2`, and the
constructor's `assert(valueIndex >= 0)` throws (modelled `none`). -/
theorem initComponent_above_counterexample :
    (0 : ℚ) ≤ 20 ∧ (0 : ℚ) < 1 ∧ (1 : ℚ) ≤ 10 ∧
    VariableComponentValue.initComponent 20 10 1 false false = none := by
  refine ⟨by norm_num, by norm_num, by norm_num, ?_⟩
  have hall : ∀ a ∈ componentTable 1 10 false false,
      (decide (((20 : ℚ) : WithTop ℚ) ≤ a)) = false := by
    intro a ha
    simp only [componentTable, Bool.false_eq_true, if_false] at ha
    obtain ⟨q, hq, rfl⟩ := List.mem_map.mp ha
    have hle := (feasible_mem_range 1 10 q hq).2
    have hnot : ¬ (((20 : ℚ) : WithTop ℚ) ≤ (q : WithTop ℚ)) := by
      rw [WithTop.coe_le_coe]
      push_neg
      linarith
    simpa using hnot
  have hfind : findIndexJS (fun feasibleValue =>
      decide (((20 : ℚ) : WithTop ℚ) ≤ feasibleValue))
      (componentTable 1 10 false false) = -1 :=
    (findIndexJS_eq_neg_one _ _).mpr hall
  have hnni : nearestNeighborIndex 20 (componentTable 1 10 false false) = -2 := by
    unfold nearestNeighborIndex
    rw [hfind]
    norm_num
    rfl
  simp only [VariableComponentValue.initComponent]
  rw [if_neg (not_not_intro (by norm_num : (0 : ℚ) ≤ 20)),
    if_neg (not_not_intro (by norm_num : (0 : ℚ) < 1)),
    if_neg (not_not_intro (by norm_num : (1 : ℚ) ≤ 10)),
    if_neg (by norm_num : ¬ (20 : ℚ) = 0), hnni,
    if_neg (by norm_num : ¬ (0 : ℤ) ≤ -2)]
